import Mathlib

/-!
Verification of the pendulum swing-up environment
(`mbse/models/environment_models/pendulum_swing_up.py`) and the model-based
training loop (`mbse/trainer/model_based/model_based_trainer.py`).

Numerical code is embedded over an arbitrary linear ordered field `R`
(floating point is modelled as exact arithmetic).  The transcendental
functions `sin`, `cos`, `arctan2` and the constant `π` appear in the source
only as opaque numerical kernels, so they are passed as parameters; theorems
that need genuine trigonometric facts take exactly those facts as hypotheses
(all of which hold for the real functions).
-/

namespace Pend

variable {R : Type} [LinearOrderedField R] [FloorRing R]

/-- `np.clip` / `jnp.clip`: equivalent to `minimum(hi, maximum(lo, x))`. -/
def clip (lo hi x : R) : R := min hi (max lo x)

/-- `gym.envs.classic_control.pendulum.angle_normalize`:
`((x + np.pi) % (2 * np.pi)) - np.pi`, with numpy's floored modulo. -/
def angleNormalize (pi th : R) : R :=
  ((th + pi) - (2 * pi) * ⌊(th + pi) / (2 * pi)⌋) - pi

/-- Configuration of `PendulumReward.__init__`: the control-cost weight and
the `sparse` flag, both stored on the instance. -/
structure RewardParams (R : Type) where
  ctrlCostWeight : R
  sparse : Bool

/-- `PendulumReward.state_non_sparse_reward`:
`-(angle_normalize(theta)^2 + 0.1 * omega^2)`. -/
def stateNonSparseReward (pi th om : R) : R :=
  -(angleNormalize pi th ^ 2 + (1 / 10 : R) * om ^ 2)

/-- `PendulumReward.input_cost`: `ctrl_cost_weight * sum(square(u), axis=-1)`. -/
def inputCost (w : R) (u : List R) : R := w * (u.map (fun x => x ^ 2)).sum

/-- `PendulumReward.state_reward`: decode `theta = arctan2(state[1], state[0])`,
`omega = state[2]`, and apply the dense state reward. -/
def stateReward (atan2 : R → R → R) (pi : R) (obs : R × R × R) : R :=
  stateNonSparseReward pi (atan2 obs.2.1 obs.1) obs.2.2

/-- `PendulumReward.predict`: `state_reward(obs) - input_cost(action)`. -/
def rewardPredict (m : RewardParams R) (atan2 : R → R → R) (pi : R)
    (obs : R × R × R) (u : List R) : R :=
  stateReward atan2 pi obs - inputCost m.ctrlCostWeight u

/-- Physical constants of the base `PendulumEnv`, fixed at construction. -/
structure PendConsts (R : Type) where
  g : R
  m : R
  l : R
  dt : R
  maxSpeed : R
  maxTorque : R

/-- `PendulumEnv._get_obs`: `[cos theta, sin theta, thetadot]`. -/
def getObs (sin cos : R → R) (s : R × R) : R × R × R := (cos s.1, sin s.1, s.2)

/-- Result of `PendulumSwingUpEnv.step`: the returned 5-tuple together with
the updated `self.state`. -/
structure StepResult (R : Type) where
  nextObs : R × R × R
  reward : R
  terminated : Bool
  truncated : Bool
  nextState : R × R

/-- `PendulumSwingUpEnv.step`, line by line: reward from the reward model on
the current observation and the raw action, clip the action to
`[-max_torque, max_torque]` and take component `[0]`, compute
`omega_dot`, `new_omega = omega + omega_dot*dt`,
`new_theta = th + new_omega*dt`, then clip `new_omega` to
`[-max_speed, max_speed]` and store `[new_theta, new_omega]`. -/
def envStep (c : PendConsts R) (sin cos : R → R) (atan2 : R → R → R) (pi : R)
    (rm : RewardParams R) (s : R × R) (u : List R) : StepResult R :=
  let reward := rewardPredict rm atan2 pi (getObs sin cos s) u
  let u0 := ((u.map (clip (-c.maxTorque) c.maxTorque)).headD 0)
  let th := s.1
  let omega := s.2
  let omegaDot := 3 * c.g / (2 * c.l) * sin th + 3 / (c.m * c.l ^ 2) * u0
  let newOmega := omega + omegaDot * c.dt
  let newTheta := th + newOmega * c.dt
  let newOmegaC := clip (-c.maxSpeed) c.maxSpeed newOmega
  { nextObs := getObs sin cos (newTheta, newOmegaC)
    reward := reward
    terminated := false
    truncated := false
    nextState := (newTheta, newOmegaC) }

/-- `np_random` state and uniform sampler used by `reset`; the generator is
an external collaborator, so its draw over a 2-dimensional box is abstract. -/
structure ResetResult (R S : Type) where
  obs : R × R × R
  info : Unit
  state : R × R
  lastU : Option R
  rng : S

/-- `PendulumSwingUpEnv.reset`: `x0 = [pi, 0]`, draw
`self.state = np_random.uniform(low=x0 - scale, high=x0 + scale)`,
clear `last_u`, return `(self._get_obs(), {})`.  The `seed` parameter is
taken (as in the source) but never used. -/
def envReset {S : Type} (sin cos : R → R)
    (uniform2 : (R × R) → (R × R) → S → (R × R) × S)
    (pi scale : R) (seed : Option ℤ) (rng : S) : ResetResult R S :=
  let x0 : R × R := (pi, 0)
  let draw := uniform2 (x0.1 - scale, x0.2 - scale) (x0.1 + scale, x0.2 + scale) rng
  { obs := getObs sin cos draw.1
    info := ()
    state := draw.1
    lastU := none
    rng := draw.2 }

/-- Action-space data used by `PendulumDynamicsModel.rescale_action`:
the external convention `[min_action, max_action]` and the native
`action_space.low` / `action_space.high`. -/
structure ActionBounds (R : Type) where
  minAction : R
  maxAction : R
  low : R
  high : R

/-- `PendulumDynamicsModel.rescale_action`: clip to
`[min_action, max_action]`, map affinely onto `[low, high]`, clip to
`[low, high]`. -/
def rescaleAction (b : ActionBounds R) (a : List R) : List R :=
  let a1 := a.map (clip b.minAction b.maxAction)
  let a2 := a1.map (fun x =>
    b.low + (b.high - b.low) * ((x - b.minAction) / (b.maxAction - b.minAction)))
  a2.map (clip b.low b.high)

/-- The torque used by `PendulumDynamicsModel.predict`, line 101:
`jnp.clip(self.rescale_action(action), -max_torque, max_torque)[0]`. -/
def appliedTorque (b : ActionBounds R) (mt : R) (a : List R) : R :=
  ((rescaleAction b a).map (clip (-mt) mt)).headD 0

/-- `PendulumDynamicsModel._get_reduced_state`:
`theta = arctan2(obs[1], obs[0])`, `omega = obs[-1]`. -/
def getReducedState (atan2 : R → R → R) (obs : R × R × R) : R × R :=
  (atan2 obs.2.1 obs.1, obs.2.2)

/-- `PendulumDynamicsModel.predict` (single instance): rescale and clip the
action, decode `(theta, omega)`, run the same integration as `envStep`, and
re-encode the observation via `_get_obs`. -/
def dynPredict (c : PendConsts R) (b : ActionBounds R) (sin cos : R → R)
    (atan2 : R → R → R) (obs : R × R × R) (a : List R) : R × R × R :=
  let u := appliedTorque b c.maxTorque a
  let th := (getReducedState atan2 obs).1
  let omega := (getReducedState atan2 obs).2
  let omegaDot := 3 * c.g / (2 * c.l) * sin th + 3 / (c.m * c.l ^ 2) * u
  let newOmega := omega + omegaDot * c.dt
  let newTheta := th + newOmega * c.dt
  let newOmegaC := clip (-c.maxSpeed) c.maxSpeed newOmega
  getObs sin cos (newTheta, newOmegaC)

/-- Batched `PendulumReward.state_reward`: the array computation
`arctan2(state[..., 1], state[..., 0])`, `state[..., 2]`, applied columnwise
over a leading batch axis (batches are lists, columns via `map`/`zipWith`). -/
def stateRewardBatch (atan2 : R → R → R) (pi : R) (obs : List (R × R × R)) :
    List R :=
  let cosCol := obs.map (fun o => o.1)
  let sinCol := obs.map (fun o => o.2.1)
  let omCol := obs.map (fun o => o.2.2)
  let thetas := List.zipWith atan2 sinCol cosCol
  List.zipWith (fun th om => stateNonSparseReward pi th om) thetas omCol

/-- Batched `PendulumReward.input_cost`: rowwise sum of squares. -/
def inputCostBatch (w : R) (us : List (List R)) : List R :=
  us.map (fun u => w * (u.map (fun x => x ^ 2)).sum)

/-- Batched `PendulumReward.predict`: elementwise difference of the batched
state reward and the batched input cost. -/
def rewardPredictBatch (m : RewardParams R) (atan2 : R → R → R) (pi : R)
    (obs : List (R × R × R)) (us : List (List R)) : List R :=
  List.zipWith (fun a b => a - b) (stateRewardBatch atan2 pi obs)
    (inputCostBatch m.ctrlCostWeight us)

lemma clip_idem (lo hi x : R) : clip lo hi (clip lo hi x) = clip lo hi x := by
  unfold clip
  rcases le_total hi (max lo x) with h | h
  · rw [min_eq_left h, min_eq_left (le_max_right lo hi)]
  · rw [min_eq_right h, max_eq_right (le_max_left lo x), min_eq_right h]

lemma abs_clip_le {m : R} (hm : 0 ≤ m) (x : R) : |clip (-m) m x| ≤ m := by
  unfold clip
  rw [abs_le]
  constructor
  · exact le_min (by linarith) (le_max_left _ _)
  · exact min_le_left _ _

lemma map_clip_idem (lo hi : R) (u : List R) :
    (u.map (clip lo hi)).map (clip lo hi) = u.map (clip lo hi) := by
  rw [List.map_map]
  apply List.map_congr_left
  intro x _
  exact clip_idem lo hi x

end Pend

namespace Pend

variable {R : Type} [LinearOrderedField R] [FloorRing R]

/-- C3: `step(a)` computes its reward by applying the reward model to the
current (pre-step) observation and the raw, unclamped action `a`, while the
physical integration (next observation, next state, termination flags)
depends on `a` only through its clamping to `[-max_torque, max_torque]`. -/
theorem step_reward_unclipped_action (c : PendConsts R) (sin cos : R → R)
    (atan2 : R → R → R) (pi : R) (rm : RewardParams R) (s : R × R)
    (u : List R) :
    (envStep c sin cos atan2 pi rm s u).reward =
      rewardPredict rm atan2 pi (getObs sin cos s) u ∧
    (envStep c sin cos atan2 pi rm s u).nextObs =
      (envStep c sin cos atan2 pi rm s
        (u.map (clip (-c.maxTorque) c.maxTorque))).nextObs ∧
    (envStep c sin cos atan2 pi rm s u).nextState =
      (envStep c sin cos atan2 pi rm s
        (u.map (clip (-c.maxTorque) c.maxTorque))).nextState := by
  refine ⟨rfl, ?_, ?_⟩ <;>
    simp only [envStep, map_clip_idem]

/-- C6: after one integration step, the angular velocity stored in the
environment state, the one in the environment's returned observation, and
the one in the dynamics model's predicted observation all satisfy
`|omega| <= max_speed`. -/
theorem omega_always_clamped (c : PendConsts R) (b : ActionBounds R)
    (sin cos : R → R) (atan2 : R → R → R) (pi : R) (rm : RewardParams R)
    (s : R × R) (u : List R) (obs : R × R × R) (a : List R)
    (hms : 0 ≤ c.maxSpeed) :
    |(envStep c sin cos atan2 pi rm s u).nextState.2| ≤ c.maxSpeed ∧
    |(envStep c sin cos atan2 pi rm s u).nextObs.2.2| ≤ c.maxSpeed ∧
    |(dynPredict c b sin cos atan2 obs a).2.2| ≤ c.maxSpeed := by
  refine ⟨?_, ?_, ?_⟩ <;> exact abs_clip_le hms _

/-- C6 witness: the bound evaluated at the gym constants and a state whose
velocity update overshoots the speed limit. -/
theorem omega_always_clamped_witness :
    |(envStep (R := ℚ) ⟨10, 1, 1, 1, 8, 2⟩ (fun _ => 0) (fun _ => 1)
        (fun _ _ => 0) 0 ⟨1/1000, false⟩ (0, 100) [0]).nextState.2| ≤ 8 ∧
    |(envStep (R := ℚ) ⟨10, 1, 1, 1, 8, 2⟩ (fun _ => 0) (fun _ => 1)
        (fun _ _ => 0) 0 ⟨1/1000, false⟩ (0, 100) [0]).nextObs.2.2| ≤ 8 ∧
    |(dynPredict (R := ℚ) ⟨10, 1, 1, 1, 8, 2⟩ ⟨-2, 2, -2, 2⟩ (fun _ => 0)
        (fun _ => 1) (fun _ _ => 0) (1, 0, 100) [0]).2.2| ≤ 8 :=
  omega_always_clamped ⟨10, 1, 1, 1, 8, 2⟩ ⟨-2, 2, -2, 2⟩ (fun _ => 0)
    (fun _ => 1) (fun _ _ => 0) 0 ⟨1/1000, false⟩ (0, 100) [0] (1, 0, 100) [0]
    (by norm_num)

/-- C7: the torque applied by the dynamics model is the four-stage pipeline
(clip to `[min_action, max_action]`, affine map onto `[low, high]`, clip to
`[low, high]`, clip to `[-max_torque, max_torque]`), and it always satisfies
`|u| <= max_torque`. -/
theorem applied_torque_pipeline (b : ActionBounds R) (mt : R) (a : List R)
    (hmt : 0 ≤ mt) :
    appliedTorque b mt a =
      ((((a.map (clip b.minAction b.maxAction)).map (fun x =>
          b.low + (b.high - b.low) *
            ((x - b.minAction) / (b.maxAction - b.minAction)))).map
        (clip b.low b.high)).map (clip (-mt) mt)).headD 0 ∧
    |appliedTorque b mt a| ≤ mt := by
  refine ⟨rfl, ?_⟩
  unfold appliedTorque
  cases h : rescaleAction b a with
  | nil => simpa [h] using hmt
  | cons x xs => simpa [h] using abs_clip_le hmt x

/-- C7 witness: an out-of-range action on concrete bounds. -/
theorem applied_torque_pipeline_witness :
    appliedTorque (R := ℚ) ⟨-1, 1, -2, 2⟩ 2 [5] =
      (((([(5 : ℚ)].map (clip (-1) 1)).map (fun x =>
          -2 + (2 - -2) * ((x - -1) / (1 - -1)))).map
        (clip (-2) 2)).map (clip (-2) 2)).headD 0 ∧
    |appliedTorque (R := ℚ) ⟨-1, 1, -2, 2⟩ 2 [5]| ≤ 2 :=
  applied_torque_pipeline ⟨-1, 1, -2, 2⟩ 2 [5] (by norm_num)

/-- C9: `PendulumReward.predict` does not depend on the `sparse` flag, and
always computes the dense formula
`-(normalize(theta)^2 + 0.1*omega^2) - ctrl_cost_weight * sum(a_i^2)`. -/
theorem sparse_flag_unused (w : R) (b1 b2 : Bool) (atan2 : R → R → R)
    (pi : R) (obs : R × R × R) (u : List R) :
    rewardPredict ⟨w, b1⟩ atan2 pi obs u =
      rewardPredict ⟨w, b2⟩ atan2 pi obs u ∧
    rewardPredict ⟨w, b1⟩ atan2 pi obs u =
      -(angleNormalize pi (atan2 obs.2.1 obs.1) ^ 2 +
          (1 / 10 : R) * obs.2.2 ^ 2) -
        w * (u.map (fun x => x ^ 2)).sum :=
  ⟨rfl, rfl⟩

/-- C10: `reset` ignores its `seed` parameter entirely: for any two seed
arguments (including `none`), the observation, info, post-call environment
state, cleared last action, and generator state are identical, depending
only on the pre-existing generator state. -/
theorem reset_seed_ignored {S : Type} (sin cos : R → R)
    (uniform2 : (R × R) → (R × R) → S → (R × R) × S) (pi scale : R)
    (s1 s2 : Option ℤ) (rng : S) :
    envReset sin cos uniform2 pi scale s1 rng =
      envReset sin cos uniform2 pi scale s2 rng := rfl

/-- C8: the batched reward-model call equals, elementwise, the results of
the single-instance calls on each (observation, action) pair. -/
theorem batched_reward_elementwise (m : RewardParams R) (atan2 : R → R → R)
    (pi : R) (l : List ((R × R × R) × List R)) :
    rewardPredictBatch m atan2 pi (l.map Prod.fst) (l.map Prod.snd) =
      l.map (fun p => rewardPredict m atan2 pi p.1 p.2) := by
  induction l with
  | nil => rfl
  | cons hd tl ih =>
    simp only [List.map_cons, rewardPredictBatch, stateRewardBatch,
      inputCostBatch, List.zipWith_cons_cons] at ih ⊢
    exact congrArg₂ List.cons rfl ih

/-- C1 (amended): in both the environment's `step` and the dynamics model's
`predict`, one integration step computes `omega' = omega + omega_dot*dt`,
updates the angle using the *unclamped* updated velocity
(`theta' = theta + omega'*dt`), and only then clamps `omega'` to
`[-max_speed, max_speed]` for the stored velocity: the angle update sees the
pre-clamp velocity. -/
theorem integration_theta_uses_unclamped_omega (c : PendConsts R)
    (b : ActionBounds R) (sin cos : R → R) (atan2 : R → R → R) (pi : R)
    (rm : RewardParams R) (s : R × R) (u : List R) (obs : R × R × R)
    (a : List R) :
    (envStep c sin cos atan2 pi rm s u).nextState =
      (s.1 + (s.2 + (3 * c.g / (2 * c.l) * sin s.1 + 3 / (c.m * c.l ^ 2) *
          ((u.map (clip (-c.maxTorque) c.maxTorque)).headD 0)) * c.dt) * c.dt,
       clip (-c.maxSpeed) c.maxSpeed
         (s.2 + (3 * c.g / (2 * c.l) * sin s.1 + 3 / (c.m * c.l ^ 2) *
           ((u.map (clip (-c.maxTorque) c.maxTorque)).headD 0)) * c.dt)) ∧
    dynPredict c b sin cos atan2 obs a =
      getObs sin cos
        ((getReducedState atan2 obs).1 + ((getReducedState atan2 obs).2 +
            (3 * c.g / (2 * c.l) * sin (getReducedState atan2 obs).1 +
              3 / (c.m * c.l ^ 2) * appliedTorque b c.maxTorque a) * c.dt) * c.dt,
         clip (-c.maxSpeed) c.maxSpeed ((getReducedState atan2 obs).2 +
            (3 * c.g / (2 * c.l) * sin (getReducedState atan2 obs).1 +
              3 / (c.m * c.l ^ 2) * appliedTorque b c.maxTorque a) * c.dt)) :=
  ⟨rfl, rfl⟩

/-- C1 counterexample: with `dt = 1`, `max_speed = 1`, state
`(theta, omega) = (0, 2)` and zero torque, the code returns
`theta' = 0 + 2*1 = 2` (unclamped velocity), while the claimed update
`theta' = theta + clip(omega + omega_dot*dt)*dt` gives `0 + 1*1 = 1`. -/
theorem integration_order_claim_fails :
    (envStep (R := ℚ) ⟨10, 1, 1, 1, 1, 10⟩ (fun _ => 0) (fun _ => 1)
        (fun _ _ => 0) 0 ⟨1/1000, false⟩ (0, 2) [0]).nextState ≠
      ((0 : ℚ) + clip (-1) 1
          (2 + (3 * 10 / (2 * 1) * 0 + 3 / (1 * 1 ^ 2) * 0) * 1) * 1,
       clip (-1) 1
          (2 + (3 * 10 / (2 * 1) * 0 + 3 / (1 * 1 ^ 2) * 0) * 1)) := by
  have hstate : (envStep (R := ℚ) ⟨10, 1, 1, 1, 1, 10⟩ (fun _ => 0)
      (fun _ => 1) (fun _ _ => 0) 0 ⟨1/1000, false⟩ (0, 2) [0]).nextState =
      (2, 1) := by
    simp only [envStep, List.map_cons, List.map_nil, List.headD_cons]
    norm_num [clip, max_def, min_def]
  rw [hstate]
  norm_num [clip, max_def, min_def, Prod.ext_iff]

/-- C4: given the same physical constants, an observation that encodes the
environment's state, and an action left fixed by the action rescaling (an
already-native-scaled torque), the dynamics model's `predict` returns
exactly the environment `step`'s next observation.  The three hypotheses are
the facts about `sin`/`cos`/`arctan2` the round trip relies on, each true of
the real functions. -/
theorem dyn_predict_agrees_with_env_step (c : PendConsts R)
    (b : ActionBounds R) (sin cos : R → R) (atan2 : R → R → R) (pi : R)
    (rm : RewardParams R) (s : R × R) (a : List R)
    (h1 : ∀ t, sin (atan2 (sin t) (cos t)) = sin t)
    (h2 : ∀ t, cos (atan2 (sin t) (cos t)) = cos t)
    (h3 : ∀ x y z : R, sin x = sin y → cos x = cos y →
        sin (x + z) = sin (y + z) ∧ cos (x + z) = cos (y + z))
    (hres : rescaleAction b a = a) :
    dynPredict c b sin cos atan2 (getObs sin cos s) a =
      (envStep c sin cos atan2 pi rm s a).nextObs := by
  have hu : appliedTorque b c.maxTorque a =
      (a.map (clip (-c.maxTorque) c.maxTorque)).headD 0 := by
    unfold appliedTorque
    rw [hres]
  obtain ⟨hs, hc⟩ := h3 (atan2 (sin s.1) (cos s.1)) s.1
    ((s.2 + (3 * c.g / (2 * c.l) * sin s.1 + 3 / (c.m * c.l ^ 2) *
        ((a.map (clip (-c.maxTorque) c.maxTorque)).headD 0)) * c.dt) * c.dt)
    (h1 s.1) (h2 s.1)
  show (cos (atan2 (sin s.1) (cos s.1) + (s.2 + (3 * c.g / (2 * c.l) *
          sin (atan2 (sin s.1) (cos s.1)) + 3 / (c.m * c.l ^ 2) *
          appliedTorque b c.maxTorque a) * c.dt) * c.dt),
        sin (atan2 (sin s.1) (cos s.1) + (s.2 + (3 * c.g / (2 * c.l) *
          sin (atan2 (sin s.1) (cos s.1)) + 3 / (c.m * c.l ^ 2) *
          appliedTorque b c.maxTorque a) * c.dt) * c.dt),
        clip (-c.maxSpeed) c.maxSpeed (s.2 + (3 * c.g / (2 * c.l) *
          sin (atan2 (sin s.1) (cos s.1)) + 3 / (c.m * c.l ^ 2) *
          appliedTorque b c.maxTorque a) * c.dt)) =
      (cos (s.1 + (s.2 + (3 * c.g / (2 * c.l) * sin s.1 +
          3 / (c.m * c.l ^ 2) *
          ((a.map (clip (-c.maxTorque) c.maxTorque)).headD 0)) * c.dt) * c.dt),
        sin (s.1 + (s.2 + (3 * c.g / (2 * c.l) * sin s.1 +
          3 / (c.m * c.l ^ 2) *
          ((a.map (clip (-c.maxTorque) c.maxTorque)).headD 0)) * c.dt) * c.dt),
        clip (-c.maxSpeed) c.maxSpeed (s.2 + (3 * c.g / (2 * c.l) * sin s.1 +
          3 / (c.m * c.l ^ 2) *
          ((a.map (clip (-c.maxTorque) c.maxTorque)).headD 0)) * c.dt))
  rw [hu, h1 s.1]
  exact congrArg₂ Prod.mk hc (congrArg₂ Prod.mk hs rfl)

/-- C4 witness: concrete instantiation (rational arithmetic, stand-in
trigonometric functions satisfying the hypotheses, bounds making the
rescale the identity on the action `[0]`). -/
theorem dyn_predict_agrees_with_env_step_witness :
    dynPredict (R := ℚ) ⟨10, 1, 1, 1, 8, 2⟩ ⟨-2, 2, -2, 2⟩ (fun _ => 0)
        (fun _ => 1) (fun _ _ => 0)
        (getObs (fun _ => 0) (fun _ => 1) (0, 0)) [0] =
      (envStep (R := ℚ) ⟨10, 1, 1, 1, 8, 2⟩ (fun _ => 0) (fun _ => 1)
        (fun _ _ => 0) 0 ⟨1/1000, false⟩ (0, 0) [0]).nextObs :=
  dyn_predict_agrees_with_env_step ⟨10, 1, 1, 1, 8, 2⟩ ⟨-2, 2, -2, 2⟩
    (fun _ => 0) (fun _ => 1) (fun _ _ => 0) 0 ⟨1/1000, false⟩ (0, 0) [0]
    (fun _ => rfl) (fun _ => rfl) (fun _ _ _ _ _ => ⟨rfl, rfl⟩)
    (by norm_num [rescaleAction, clip])

end Pend

namespace Trainer

/-!
Embedding of the learning phase of `ModelBasedTrainer.train`
(`model_based_trainer.py`, lines 53-87), restricted to the quantities the
cadence claims are about: the loop variable `step`, the global `train_steps`
counter, and the number of evaluation records emitted.  Per iteration: if
`step % train_freq == 0` the inner update loop runs `train_steps` times,
incrementing the counter once per update; afterwards an evaluation record is
emitted iff `train_steps % eval_freq == 0` holds for the current counter.
-/

/-- One iteration of the learning loop: `(counter, evalRecords) → step ↦ …`. -/
def loopIter (tf tsp ef : ℕ) (st : ℕ × ℕ) (s : ℕ) : ℕ × ℕ :=
  let c := if s % tf = 0 then st.1 + tsp else st.1
  (c, st.2 + if c % ef = 0 then 1 else 0)

/-- The learning loop run for `L = learning_steps` iterations, starting from
`train_steps = 0` and no evaluation records. -/
def runLoop (tf tsp ef L : ℕ) : ℕ × ℕ :=
  (List.range L).foldl (loopIter tf tsp ef) (0, 0)

/-- Number of iterations among the first `L` that trigger a training burst. -/
def burstCount (tf L : ℕ) : ℕ :=
  ((List.range L).filter (fun s => s % tf = 0)).length

lemma burstCount_succ (tf n : ℕ) :
    burstCount tf (n + 1) =
      burstCount tf n + if n % tf = 0 then 1 else 0 := by
  simp only [burstCount, List.range_succ, List.filter_append,
    List.length_append]
  by_cases h : n % tf = 0 <;> simp [h]

lemma runLoop_spec (tf tsp ef : ℕ) (L : ℕ) :
    runLoop tf tsp ef L =
      (tsp * burstCount tf L,
       ((List.range L).filter
         (fun s => (tsp * burstCount tf (s + 1)) % ef = 0)).length) := by
  induction L with
  | zero => simp [runLoop, burstCount]
  | succ n ih =>
    have hr : runLoop tf tsp ef (n + 1) =
        loopIter tf tsp ef (runLoop tf tsp ef n) n := by
      simp [runLoop, List.range_succ]
    have hc : (if n % tf = 0 then tsp * burstCount tf n + tsp
        else tsp * burstCount tf n) = tsp * burstCount tf (n + 1) := by
      rw [burstCount_succ]
      by_cases h : n % tf = 0 <;> simp [h, Nat.mul_add]
    rw [hr, ih]
    simp only [loopIter, hc]
    refine congrArg₂ Prod.mk rfl ?_
    rw [List.range_succ, List.filter_append, List.length_append]
    by_cases h : (tsp * burstCount tf (n + 1)) % ef = 0 <;> simp [h]

lemma burstCount_closed (tf : ℕ) (h : 0 < tf) (s : ℕ) :
    burstCount tf (s + 1) = s / tf + 1 := by
  induction s with
  | zero =>
    simp [burstCount, List.range_succ, Nat.zero_mod, Nat.zero_div]
  | succ n ih =>
    rw [burstCount_succ, ih, Nat.succ_div]
    by_cases hd : tf ∣ n + 1
    · rw [if_pos (Nat.dvd_iff_mod_eq_zero.mp hd), if_pos hd]
    · rw [if_neg (fun hm => hd (Nat.dvd_iff_mod_eq_zero.mpr hm)),
        if_neg hd]

/-- C5 counterexample: with `train_freq = 2`, `train_steps = 2`,
`eval_freq = 2` and two rollout iterations, the counter ends at 2 (so the
claim predicts exactly one evaluation record per 2 increments, i.e. one
record), but the loop emits two records: the second iteration re-checks the
unchanged counter and evaluates again. -/
theorem eval_cadence_claim_fails :
    (runLoop 2 2 2 2).2 ≠ (runLoop 2 2 2 2).1 / 2 := by decide

/-- C5 (amended): during the learning phase an evaluation record is emitted
at exactly those rollout iterations `s` whose end-of-iteration train-step
counter `train_steps * (s / train_freq + 1)` is divisible by `eval_freq`.
The cadence is therefore per divisible counter value, re-triggered on
non-training iterations and able to skip multiples, not exactly once per
`eval_freq` counter increments. -/
theorem eval_records_characterization (tf tsp ef L : ℕ) (h : 0 < tf) :
    (runLoop tf tsp ef L).2 =
      ((List.range L).filter
        (fun s => (tsp * (s / tf + 1)) % ef = 0)).length := by
  rw [runLoop_spec]
  apply congrArg List.length
  apply List.filter_congr
  intro s _
  rw [burstCount_closed tf h s]

/-- C5 witness: the characterization evaluated at concrete parameters. -/
theorem eval_records_characterization_witness :
    (runLoop 2 2 2 2).2 =
      ((List.range 2).filter
        (fun s => (2 * (s / 2 + 1)) % 2 = 0)).length :=
  eval_records_characterization 2 2 2 2 (by decide)

end Trainer

namespace Rng

/-!
Embedding of the pseudo-random key dataflow of `ModelBasedTrainer.train`
(`model_based_trainer.py`, lines 24-87).  A key is modelled by its derivation
path in the split tree: the `i`-th entry of `jax.random.split(k, n)` is the
key `i :: k`.  The trace records, in program order, every `(call site, key)`
pair: both the keys consumed by randomness consumers (evaluation, rollout,
reset-seed draw, actor, agent update, buffer sampling) and the keys passed to
`jax.random.split` itself.  The trainer's incoming `self.rng` is the root
path `[]`.
-/

/-- A PRNG key, identified by its derivation path (most recent child first). -/
abbrev Key := List ℕ

/-- The call sites of `train()` that receive a key. -/
inductive Site where
  | splitInitial
  | splitEval0
  | initialEval
  | explorationRollout
  | splitLearningKeys
  | splitResetPair
  | resetSeedDraw
  | splitStep : ℕ → Site
  | actorStep : ℕ → Site
  | splitTrain : ℕ → ℕ → Site
  | agentUpdate : ℕ → ℕ → Site
  | bufferSample : ℕ → ℕ → Site
  | splitPeriodicEval : ℕ → Site
  | periodicEval : ℕ → Site
deriving DecidableEq

/-- The inner update loop (lines 59-65): `c` remaining updates, `i` the
update index within the burst of step `s`, `tr` the current `train_rng`;
each iteration splits `tr` into `(train_rng, agent_rng, buffer_rng)` and
consumes the latter two. -/
def burstAux (s : ℕ) : ℕ → ℕ → Key → List (Site × Key)
  | 0, _, _ => []
  | c + 1, i, tr =>
      (Site.splitTrain s i, tr) :: (Site.agentUpdate s i, 1 :: tr) ::
        (Site.bufferSample s i, 2 :: tr) :: burstAux s c (i + 1) (0 :: tr)

/-- `rng_keys[step]`: the learning keys are the children `1, 2, …` of
`self.rng = [0]` (child `0` becomes the new `self.rng`, line 42), and
`rng_keys[0]` is replaced (line 46) by the first half of its split with
`reset_rng`. -/
def stepKey (s : ℕ) : Key := if s = 0 then [0, 1, 0] else [s + 1, 0]

/-- One iteration of the learning loop (lines 53-87): split `rng_keys[step]`
into `(actor_rng, train_rng)`, consume `actor_rng` in `step_env`, run the
update burst when `step % train_freq == 0` (bumping the `train_steps`
counter by `train_steps`), then split `eval_rng` and consume the fresh
`curr_eval` when `train_steps % eval_freq == 0`. -/
def stepBlock (tf tsp ef s : ℕ) (ks er : Key) (c : ℕ) :
    List (Site × Key) × Key × ℕ :=
  let base := [(Site.splitStep s, ks), (Site.actorStep s, 0 :: ks)]
  let doTrain := s % tf = 0
  let tEntries := if doTrain then burstAux s tsp 0 (1 :: ks) else []
  let c2 := if doTrain then c + tsp else c
  if c2 % ef = 0 then
    (base ++ tEntries ++
      [(Site.splitPeriodicEval s, er), (Site.periodicEval s, 1 :: er)],
      0 :: er, c2)
  else
    (base ++ tEntries, er, c2)

/-- The key dataflow before the learning loop (lines 24-52): split the root
into `(self.rng, eval_rng)`, split `eval_rng` for the initial evaluation,
pass `self.rng` to `rollout_policy` (line 39) *and* to the learning-key
split (line 41), then split `rng_keys[0]` for the reset-seed draw. -/
def preTrace : List (Site × Key) :=
  [(Site.splitInitial, []), (Site.splitEval0, [1]), (Site.initialEval, [1, 1]),
   (Site.explorationRollout, [0]), (Site.splitLearningKeys, [0]),
   (Site.splitResetPair, [1, 0]), (Site.resetSeedDraw, [1, 1, 0])]

/-- Accumulating one loop iteration onto the trace. -/
def loopStep (tf tsp ef : ℕ) (st : List (Site × Key) × Key × ℕ) (s : ℕ) :
    List (Site × Key) × Key × ℕ :=
  let b := stepBlock tf tsp ef s (stepKey s) st.2.1 st.2.2
  (st.1 ++ b.1, b.2)

/-- The full trace of `(call site, key)` pairs of one `train()` run with
hyperparameters `max_train_steps`, `rollout_steps`, `num_envs`,
`train_freq`, `train_steps`, `eval_freq`; the loop runs
`learning_steps = max_train_steps / (rollout_steps * num_envs)` times. -/
def trainTrace (mts rs ne tf tsp ef : ℕ) : List (Site × Key) :=
  ((List.range (mts / (rs * ne))).foldl (loopStep tf tsp ef)
    (preTrace, [0, 1], 0)).1

/-- C2 counterexample: in a concrete run (`max_train_steps = 2`, the other
hyperparameters 1) the sub-state `[0]` (`self.rng` after the initial split)
is passed to two different call sites — the exploration rollout (line 39)
and the learning-key split (line 41) — so the trace keys are not pairwise
distinct. -/
theorem rng_key_reused :
    (trainTrace 2 1 1 1 1 1)[3]? = some (Site.explorationRollout, [0]) ∧
    (trainTrace 2 1 1 1 1 1)[4]? = some (Site.splitLearningKeys, [0]) ∧
    ¬ (trainTrace 2 1 1 1 1 1).Pairwise (fun a b => a.2 ≠ b.2) := by
  decide

/-- The `eval_rng` chain: after `n` splits of the evaluation key, the
threaded `eval_rng` is `0^n ++ [1]`. -/
def evalChain (n : ℕ) : Key := List.replicate n 0 ++ [1]

/-- Keys living in the subtree of `rng_keys[s]`. -/
def stepSub (s : ℕ) (k : Key) : Prop := ∃ p, k = p ++ stepKey s

/-- Keys consumed on the evaluation chain before its `n`-th split. -/
def evalKeyP (n : ℕ) (k : Key) : Prop :=
  ∃ m, m < n ∧ (k = evalChain m ∨ k = 1 :: evalChain m)

/-- Characterization of every key occurring in the trace after the first
`s` loop iterations and `n` evaluation splits. -/
def oldKey (s n : ℕ) (k : Key) : Prop :=
  k = [] ∨ k = [0] ∨ k = [1, 0] ∨ k = [1, 1, 0] ∨
    (∃ t, t < s ∧ stepSub t k) ∨ evalKeyP n k

/-- The pairwise relation of the amended claim: any two trace entries
carrying the same key are the exploration rollout (line 39) followed by the
learning-key split (line 41). -/
def AllowedPair (a b : Site × Key) : Prop :=
  a.2 = b.2 → a.1 = Site.explorationRollout ∧ b.1 = Site.splitLearningKeys

lemma stepKey_rev (s : ℕ) :
    (stepKey s).reverse = if s = 0 then [0, 1, 0] else [0, s + 1] := by
  unfold stepKey
  by_cases h : s = 0 <;> simp [h]

lemma stepSub_rev {s : ℕ} {k : Key} (h : stepSub s k) :
    ∃ q, k.reverse = (if s = 0 then [0, 1, 0] else [0, s + 1]) ++ q := by
  obtain ⟨p, rfl⟩ := h
  exact ⟨p.reverse, by rw [List.reverse_append, stepKey_rev]⟩

lemma evalChain_rev (m : ℕ) :
    (evalChain m).reverse = 1 :: List.replicate m 0 := by
  simp [evalChain, List.reverse_append]

lemma evalKeyP_rev {n : ℕ} {k : Key} (h : evalKeyP n k) :
    ∃ q, k.reverse = 1 :: q := by
  obtain ⟨m, _, h | h⟩ := h
  · exact ⟨List.replicate m 0, by rw [h, evalChain_rev]⟩
  · refine ⟨List.replicate m 0 ++ [1], ?_⟩
    rw [h, List.reverse_cons, evalChain_rev]
    rfl

lemma stepSub_ne_evalKeyP {s n : ℕ} {k k' : Key} (h : stepSub s k)
    (h' : evalKeyP n k') : k ≠ k' := by
  rintro rfl
  obtain ⟨q, hq⟩ := stepSub_rev h
  obtain ⟨q', hq'⟩ := evalKeyP_rev h'
  rw [hq] at hq'
  by_cases hs : s = 0 <;> simp [hs] at hq'

lemma stepSub_ne_stepSub {s t : ℕ} (hst : s ≠ t) {k : Key}
    (h : stepSub s k) (h' : stepSub t k) : False := by
  obtain ⟨q, hq⟩ := stepSub_rev h
  obtain ⟨q', hq'⟩ := stepSub_rev h'
  rw [hq] at hq'
  by_cases hs : s = 0 <;> by_cases ht : t = 0
  · exact hst (hs.trans ht.symm)
  · simp [hs, ht] at hq'
  · simp [hs, ht] at hq'
  · simp [hs, ht] at hq'
    omega

lemma stepSub_ne_static {s : ℕ} {k : Key} (h : stepSub s k) :
    k ≠ [] ∧ k ≠ [0] ∧ k ≠ [1, 0] ∧ k ≠ [1, 1, 0] := by
  obtain ⟨q, hq⟩ := stepSub_rev h
  refine ⟨?_, ?_, ?_, ?_⟩ <;> rintro rfl <;>
    by_cases hs : s = 0 <;> simp [hs] at hq <;> omega

lemma evalKeyP_ne_static {n : ℕ} {k : Key} (h : evalKeyP n k) :
    k ≠ [] ∧ k ≠ [0] ∧ k ≠ [1, 0] ∧ k ≠ [1, 1, 0] := by
  obtain ⟨q, hq⟩ := evalKeyP_rev h
  refine ⟨?_, ?_, ?_, ?_⟩ <;> rintro rfl <;> simp at hq

lemma evalChain_inj {m m' : ℕ} (h : evalChain m = evalChain m') : m = m' := by
  have hl := congrArg List.length h
  simp [evalChain] at hl
  exact hl

lemma evalChain_ne_cons (m m' : ℕ) : evalChain m ≠ 1 :: evalChain m' := by
  intro h
  have hr := congrArg List.reverse h
  rw [evalChain_rev, List.reverse_cons, evalChain_rev] at hr
  have h1 : (1 : ℕ) ∈ List.replicate m 0 := by
    have := (List.cons.injEq _ _ _ _).mp hr
    rw [this.2]
    simp
  simp [List.mem_replicate] at h1

lemma eval_new_ne_old {n m : ℕ} (hm : m < n) :
    evalChain n ≠ evalChain m ∧ evalChain n ≠ 1 :: evalChain m ∧
      (1 :: evalChain n) ≠ evalChain m ∧
      (1 :: evalChain n) ≠ 1 :: evalChain m := by
  refine ⟨?_, evalChain_ne_cons n m, ?_, ?_⟩
  · intro h
    exact absurd (evalChain_inj h) (by omega)
  · intro h
    exact evalChain_ne_cons m n h.symm
  · intro h
    have := (List.cons.injEq _ _ _ _).mp h
    exact absurd (evalChain_inj this.2) (by omega)

lemma burstAux_mem {s : ℕ} : ∀ {c i : ℕ} {tr : Key} {e : Site × Key},
    e ∈ burstAux s c i tr →
    ∃ d, d < c ∧ (e.2 = List.replicate d 0 ++ tr ∨
      e.2 = 1 :: (List.replicate d 0 ++ tr) ∨
      e.2 = 2 :: (List.replicate d 0 ++ tr)) := by
  intro c
  induction c with
  | zero =>
    intro i tr e h
    simp [burstAux] at h
  | succ n ih =>
    intro i tr e h
    simp only [burstAux, List.mem_cons] at h
    rcases h with rfl | rfl | rfl | h
    · exact ⟨0, by omega, Or.inl (by simp)⟩
    · exact ⟨0, by omega, Or.inr (Or.inl (by simp))⟩
    · exact ⟨0, by omega, Or.inr (Or.inr (by simp))⟩
    · obtain ⟨d, hd, hform⟩ := ih h
      refine ⟨d + 1, by omega, ?_⟩
      have hrep : List.replicate (d + 1) 0 ++ tr =
          List.replicate d 0 ++ (0 :: tr) := by
        rw [List.replicate_succ', List.append_assoc]
        rfl
      rw [hrep]
      exact hform

lemma burst_tail_key_ne {d : ℕ} {tr x : Key}
    (hx : x = List.replicate d 0 ++ (0 :: tr) ∨
      x = 1 :: (List.replicate d 0 ++ (0 :: tr)) ∨
      x = 2 :: (List.replicate d 0 ++ (0 :: tr))) :
    tr ≠ x ∧ (1 :: tr) ≠ x ∧ (2 :: tr) ≠ x := by
  rcases hx with rfl | rfl | rfl
  · refine ⟨?_, ?_, ?_⟩
    · intro h
      have hl := congrArg List.length h
      simp at hl
      omega
    · intro h
      cases d with
      | zero => simp at h
      | succ d' =>
        rw [List.replicate_succ] at h
        have := (List.cons.injEq _ _ _ _).mp h
        omega
    · intro h
      cases d with
      | zero => simp at h
      | succ d' =>
        rw [List.replicate_succ] at h
        have := (List.cons.injEq _ _ _ _).mp h
        omega
  · refine ⟨?_, ?_, ?_⟩
    · intro h
      have hl := congrArg List.length h
      simp at hl
      omega
    · intro h
      have := (List.cons.injEq _ _ _ _).mp h
      have hl := congrArg List.length this.2
      simp at hl
      omega
    · intro h
      have := (List.cons.injEq _ _ _ _).mp h
      omega
  · refine ⟨?_, ?_, ?_⟩
    · intro h
      have hl := congrArg List.length h
      simp at hl
      omega
    · intro h
      have := (List.cons.injEq _ _ _ _).mp h
      omega
    · intro h
      have := (List.cons.injEq _ _ _ _).mp h
      have hl := congrArg List.length this.2
      simp at hl
      omega

lemma burstAux_pairwise {s : ℕ} : ∀ {c i : ℕ} {tr : Key},
    (burstAux s c i tr).Pairwise (fun a b => a.2 ≠ b.2) := by
  intro c
  induction c with
  | zero =>
    intro i tr
    simp [burstAux]
  | succ n ih =>
    intro i tr
    simp only [burstAux]
    refine List.Pairwise.cons ?_ (List.Pairwise.cons ?_
      (List.Pairwise.cons ?_ ih))
    · intro b hb
      rcases List.mem_cons.mp hb with rfl | hb
      · intro h
        have hl := congrArg List.length h
        simp at hl
      · rcases List.mem_cons.mp hb with rfl | hb
        · intro h
          have hl := congrArg List.length h
          simp at hl
        · obtain ⟨d, _, hf⟩ := burstAux_mem hb
          exact (burst_tail_key_ne hf).1
    · intro b hb
      rcases List.mem_cons.mp hb with rfl | hb
      · intro h
        have := (List.cons.injEq _ _ _ _).mp h
        omega
      · obtain ⟨d, _, hf⟩ := burstAux_mem hb
        exact (burst_tail_key_ne hf).2.1
    · intro b hb
      obtain ⟨d, _, hf⟩ := burstAux_mem hb
      exact (burst_tail_key_ne hf).2.2

lemma burst_key_ne_base {s tsp i : ℕ} {ks : Key} {e : Site × Key}
    (he : e ∈ burstAux s tsp i (1 :: ks)) : ks ≠ e.2 ∧ (0 :: ks) ≠ e.2 := by
  obtain ⟨d, _, hf⟩ := burstAux_mem he
  rcases hf with h | h | h
  · rw [h]
    constructor
    · intro hk
      have hl := congrArg List.length hk
      simp at hl
      omega
    · cases d with
      | zero =>
        simp only [List.replicate, List.nil_append]
        intro hk
        have := (List.cons.injEq _ _ _ _).mp hk
        omega
      | succ d' =>
        rw [List.replicate_succ]
        intro hk
        have := (List.cons.injEq _ _ _ _).mp hk
        have hl := congrArg List.length this.2
        simp at hl
        omega
  · rw [h]
    constructor
    · intro hk
      have hl := congrArg List.length hk
      simp at hl
      omega
    · intro hk
      have := (List.cons.injEq _ _ _ _).mp hk
      omega
  · rw [h]
    constructor
    · intro hk
      have hl := congrArg List.length hk
      simp at hl
      omega
    · intro hk
      have := (List.cons.injEq _ _ _ _).mp hk
      omega

lemma burst_key_stepSub {s tsp i : ℕ} {ks : Key} {e : Site × Key}
    (he : e ∈ burstAux s tsp i (1 :: ks)) : ∃ p, e.2 = p ++ ks := by
  obtain ⟨d, _, hf⟩ := burstAux_mem he
  have hass : List.replicate d 0 ++ (1 :: ks) =
      (List.replicate d 0 ++ [1]) ++ ks := by
    rw [List.append_assoc]
    rfl
  rcases hf with h | h | h
  · exact ⟨List.replicate d 0 ++ [1], by rw [h, hass]⟩
  · exact ⟨1 :: (List.replicate d 0 ++ [1]), by rw [h, hass]; rfl⟩
  · exact ⟨2 :: (List.replicate d 0 ++ [1]), by rw [h, hass]; rfl⟩

lemma blockCore_pairwise (s tsp : ℕ) (ks : Key) {tE : List (Site × Key)}
    (htE : tE = [] ∨ tE = burstAux s tsp 0 (1 :: ks)) :
    ((Site.splitStep s, ks) :: (Site.actorStep s, (0 : ℕ) :: ks) ::
      tE).Pairwise (fun a b => a.2 ≠ b.2) := by
  refine List.Pairwise.cons ?_ (List.Pairwise.cons ?_ ?_)
  · intro b hb
    rcases List.mem_cons.mp hb with rfl | hb
    · intro h
      have hl := congrArg List.length h
      simp at hl
    · rcases htE with rfl | rfl
      · simp at hb
      · exact (burst_key_ne_base hb).1
  · intro b hb
    rcases htE with rfl | rfl
    · simp at hb
    · exact (burst_key_ne_base hb).2
  · rcases htE with rfl | rfl
    · exact List.Pairwise.nil
    · exact burstAux_pairwise

lemma blockCore_stepSub (s tsp : ℕ) (ks : Key) {tE : List (Site × Key)}
    (htE : tE = [] ∨ tE = burstAux s tsp 0 (1 :: ks)) :
    ∀ e ∈ (Site.splitStep s, ks) :: (Site.actorStep s, (0 : ℕ) :: ks) :: tE,
      ∃ p, e.2 = p ++ ks := by
  intro e he
  rcases List.mem_cons.mp he with rfl | he
  · exact ⟨[], rfl⟩
  rcases List.mem_cons.mp he with rfl | he
  · exact ⟨[0], rfl⟩
  rcases htE with rfl | rfl
  · simp at he
  · exact burst_key_stepSub he

lemma evalChain_succ (n : ℕ) : evalChain (n + 1) = 0 :: evalChain n := by
  simp [evalChain, List.replicate_succ]

lemma evalChain_ne_one_cons_self (n : ℕ) : evalChain n ≠ 1 :: evalChain n := by
  intro h
  have hl := congrArg List.length h
  simp at hl

lemma evalPair_mem_eKey {s : ℕ} {n : ℕ} {b : Site × Key}
    (hb : b ∈ [(Site.splitPeriodicEval s, evalChain n),
      (Site.periodicEval s, 1 :: evalChain n)]) :
    b.2 = evalChain n ∨ b.2 = 1 :: evalChain n := by
  rcases List.mem_cons.mp hb with rfl | hb
  · exact Or.inl rfl
  rcases List.mem_cons.mp hb with rfl | hb
  · exact Or.inr rfl
  · simp at hb

lemma stepBlock_spec (tf tsp ef s n c : ℕ) :
    ∃ n', (n' = n ∨ n' = n + 1) ∧
      (stepBlock tf tsp ef s (stepKey s) (evalChain n) c).2.1 = evalChain n' ∧
      (stepBlock tf tsp ef s (stepKey s) (evalChain n) c).1.Pairwise
        (fun a b => a.2 ≠ b.2) ∧
      ∀ e ∈ (stepBlock tf tsp ef s (stepKey s) (evalChain n) c).1,
        stepSub s e.2 ∨ (n' = n + 1 ∧
          (e.2 = evalChain n ∨ e.2 = 1 :: evalChain n)) := by
  have hpairPW : ([(Site.splitPeriodicEval s, evalChain n),
      (Site.periodicEval s, 1 :: evalChain n)]).Pairwise
        (fun (a b : Site × Key) => a.2 ≠ b.2) := by
    refine List.Pairwise.cons ?_ (List.Pairwise.cons (by simp)
      List.Pairwise.nil)
    intro b hb
    rcases List.mem_cons.mp hb with rfl | hb
    · exact evalChain_ne_one_cons_self n
    · simp at hb
  by_cases hT : s % tf = 0
  · by_cases hE : (c + tsp) % ef = 0
    · have hb : stepBlock tf tsp ef s (stepKey s) (evalChain n) c =
          (((Site.splitStep s, stepKey s) ::
              (Site.actorStep s, (0 : ℕ) :: stepKey s) ::
              burstAux s tsp 0 (1 :: stepKey s)) ++
            [(Site.splitPeriodicEval s, evalChain n),
             (Site.periodicEval s, 1 :: evalChain n)],
           0 :: evalChain n, c + tsp) := by
        simp [stepBlock, hT, hE]
      refine ⟨n + 1, Or.inr rfl, ?_, ?_, ?_⟩
      · rw [hb, evalChain_succ]
      · rw [hb]
        refine List.pairwise_append.mpr ⟨blockCore_pairwise s tsp _
          (Or.inr rfl), hpairPW, ?_⟩
        intro a ha b hb'
        exact stepSub_ne_evalKeyP (blockCore_stepSub s tsp _ (Or.inr rfl) a ha)
          (⟨n, Nat.lt_succ_self n, evalPair_mem_eKey hb'⟩ : evalKeyP (n + 1) b.2)
      · rw [hb]
        intro e he
        rcases List.mem_append.mp he with he | he
        · exact Or.inl (blockCore_stepSub s tsp _ (Or.inr rfl) e he)
        · exact Or.inr ⟨rfl, evalPair_mem_eKey he⟩
    · have hb : stepBlock tf tsp ef s (stepKey s) (evalChain n) c =
          ((Site.splitStep s, stepKey s) ::
              (Site.actorStep s, (0 : ℕ) :: stepKey s) ::
              burstAux s tsp 0 (1 :: stepKey s),
           evalChain n, c + tsp) := by
        simp [stepBlock, hT, hE]
      refine ⟨n, Or.inl rfl, by rw [hb], ?_, ?_⟩
      · rw [hb]
        exact blockCore_pairwise s tsp _ (Or.inr rfl)
      · rw [hb]
        intro e he
        exact Or.inl (blockCore_stepSub s tsp _ (Or.inr rfl) e he)
  · by_cases hE : c % ef = 0
    · have hb : stepBlock tf tsp ef s (stepKey s) (evalChain n) c =
          (((Site.splitStep s, stepKey s) ::
              (Site.actorStep s, (0 : ℕ) :: stepKey s) :: ([] : List (Site × Key))) ++
            [(Site.splitPeriodicEval s, evalChain n),
             (Site.periodicEval s, 1 :: evalChain n)],
           0 :: evalChain n, c) := by
        simp [stepBlock, hT, hE]
      refine ⟨n + 1, Or.inr rfl, ?_, ?_, ?_⟩
      · rw [hb, evalChain_succ]
      · rw [hb]
        refine List.pairwise_append.mpr ⟨blockCore_pairwise s tsp _
          (Or.inl rfl), hpairPW, ?_⟩
        intro a ha b hb'
        exact stepSub_ne_evalKeyP (blockCore_stepSub s tsp _ (Or.inl rfl) a ha)
          (⟨n, Nat.lt_succ_self n, evalPair_mem_eKey hb'⟩ : evalKeyP (n + 1) b.2)
      · rw [hb]
        intro e he
        rcases List.mem_append.mp he with he | he
        · exact Or.inl (blockCore_stepSub s tsp _ (Or.inl rfl) e he)
        · exact Or.inr ⟨rfl, evalPair_mem_eKey he⟩
    · have hb : stepBlock tf tsp ef s (stepKey s) (evalChain n) c =
          ((Site.splitStep s, stepKey s) ::
              (Site.actorStep s, (0 : ℕ) :: stepKey s) :: ([] : List (Site × Key)),
           evalChain n, c) := by
        simp [stepBlock, hT, hE]
      refine ⟨n, Or.inl rfl, by rw [hb], ?_, ?_⟩
      · rw [hb]
        exact blockCore_pairwise s tsp _ (Or.inl rfl)
      · rw [hb]
        intro e he
        exact Or.inl (blockCore_stepSub s tsp _ (Or.inl rfl) e he)

lemma oldKey_mono {s s' n n' : ℕ} (hs : s ≤ s') (hn : n ≤ n') {k : Key}
    (h : oldKey s n k) : oldKey s' n' k := by
  rcases h with h | h | h | h | ⟨t, ht, hsub⟩ | ⟨m, hm, hf⟩
  · exact Or.inl h
  · exact Or.inr (Or.inl h)
  · exact Or.inr (Or.inr (Or.inl h))
  · exact Or.inr (Or.inr (Or.inr (Or.inl h)))
  · exact Or.inr (Or.inr (Or.inr (Or.inr (Or.inl ⟨t, by omega, hsub⟩))))
  · exact Or.inr (Or.inr (Or.inr (Or.inr (Or.inr ⟨m, by omega, hf⟩))))

lemma new_ne_old {s n : ℕ} {k k' : Key}
    (hnew : stepSub s k ∨ k = evalChain n ∨ k = 1 :: evalChain n)
    (hold : oldKey s n k') : k ≠ k' := by
  rcases hnew with hsub | hev
  · rcases hold with rfl | rfl | rfl | rfl | ⟨t, ht, hsub'⟩ | hevp
    · exact (stepSub_ne_static hsub).1
    · exact (stepSub_ne_static hsub).2.1
    · exact (stepSub_ne_static hsub).2.2.1
    · exact (stepSub_ne_static hsub).2.2.2
    · exact fun hk => stepSub_ne_stepSub (by omega) hsub (hk ▸ hsub')
    · exact stepSub_ne_evalKeyP hsub hevp
  · have hek : evalKeyP (n + 1) k := by
      rcases hev with rfl | rfl
      · exact ⟨n, Nat.lt_succ_self n, Or.inl rfl⟩
      · exact ⟨n, Nat.lt_succ_self n, Or.inr rfl⟩
    rcases hold with rfl | rfl | rfl | rfl | ⟨t, ht, hsub'⟩ | ⟨m, hm, hf⟩
    · exact (evalKeyP_ne_static hek).1
    · exact (evalKeyP_ne_static hek).2.1
    · exact (evalKeyP_ne_static hek).2.2.1
    · exact (evalKeyP_ne_static hek).2.2.2
    · exact (stepSub_ne_evalKeyP hsub' hek).symm
    · obtain ⟨h1, h2, h3, h4⟩ := eval_new_ne_old hm
      rcases hev with rfl | rfl <;> rcases hf with rfl | rfl
      · exact h1
      · exact h2
      · exact h3
      · exact h4

instance : DecidableRel AllowedPair := fun a b =>
  decidable_of_iff
    (a.2 = b.2 → a.1 = Site.explorationRollout ∧ b.1 = Site.splitLearningKeys)
    Iff.rfl

lemma preTrace_pairwise : preTrace.Pairwise AllowedPair := by decide

lemma preTrace_oldKey : ∀ e ∈ preTrace, oldKey 0 1 e.2 := by
  intro e he
  simp only [preTrace, List.mem_cons, List.not_mem_nil, or_false] at he
  rcases he with rfl | rfl | rfl | rfl | rfl | rfl | rfl
  · exact Or.inl rfl
  · exact Or.inr (Or.inr (Or.inr (Or.inr (Or.inr
      ⟨0, Nat.lt_succ_self 0, Or.inl rfl⟩))))
  · exact Or.inr (Or.inr (Or.inr (Or.inr (Or.inr
      ⟨0, Nat.lt_succ_self 0, Or.inr rfl⟩))))
  · exact Or.inr (Or.inl rfl)
  · exact Or.inr (Or.inl rfl)
  · exact Or.inr (Or.inr (Or.inl rfl))
  · exact Or.inr (Or.inr (Or.inr (Or.inl rfl)))

lemma fold_invariant (tf tsp ef : ℕ) (L : ℕ) :
    ∃ n, ((List.range L).foldl (loopStep tf tsp ef)
        (preTrace, ([0, 1] : Key), 0)).2.1 = evalChain n ∧
      ((List.range L).foldl (loopStep tf tsp ef)
        (preTrace, ([0, 1] : Key), 0)).1.Pairwise AllowedPair ∧
      ∀ e ∈ ((List.range L).foldl (loopStep tf tsp ef)
        (preTrace, ([0, 1] : Key), 0)).1, oldKey L n e.2 := by
  induction L with
  | zero => exact ⟨1, rfl, preTrace_pairwise, preTrace_oldKey⟩
  | succ L ih =>
    obtain ⟨n, her, hpw, hold⟩ := ih
    rw [List.range_succ, List.foldl_append, List.foldl_cons, List.foldl_nil]
    obtain ⟨n', hn', her', hbpw, hbmem⟩ := stepBlock_spec tf tsp ef L n
      ((List.range L).foldl (loopStep tf tsp ef)
        (preTrace, ([0, 1] : Key), 0)).2.2
    have hnn' : n ≤ n' := by omega
    refine ⟨n', ?_, ?_, ?_⟩
    · simp only [loopStep, her]
      exact her'
    · simp only [loopStep, her]
      refine List.pairwise_append.mpr ⟨hpw, ?_, ?_⟩
      · exact hbpw.imp (fun hne heq => absurd heq hne)
      · intro a ha b hb heq
        have hbn : stepSub L b.2 ∨ b.2 = evalChain n ∨
            b.2 = 1 :: evalChain n := by
          rcases hbmem b hb with h | ⟨_, h⟩
          · exact Or.inl h
          · exact Or.inr h
        exact absurd heq.symm (new_ne_old hbn (hold a ha))
    · simp only [loopStep, her]
      intro e he
      rcases List.mem_append.mp he with he | he
      · exact oldKey_mono (Nat.le_succ L) hnn' (hold e he)
      · rcases hbmem e he with h | ⟨htag, h⟩
        · exact Or.inr (Or.inr (Or.inr (Or.inr (Or.inl
            ⟨L, Nat.lt_succ_self L, h⟩))))
        · exact Or.inr (Or.inr (Or.inr (Or.inr (Or.inr
            ⟨n, by omega, h⟩))))

/-- C2 (amended): across one whole training run, every pseudo-random
sub-state is passed to at most one call site, with a single exception:
`self.rng` is passed both to the exploration rollout (line 39) and to the
learning-phase key split (line 41).  Formally, any two trace entries
carrying equal keys are exactly that ordered pair of call sites; every other
consumer receives a distinct, freshly split sub-state. -/
theorem rng_sub_states_distinct_except_rollout_reuse
    (mts rs ne tf tsp ef : ℕ) :
    (trainTrace mts rs ne tf tsp ef).Pairwise
      (fun a b => a.2 = b.2 →
        a.1 = Site.explorationRollout ∧ b.1 = Site.splitLearningKeys) := by
  obtain ⟨n, _, hpw, _⟩ := fold_invariant tf tsp ef (mts / (rs * ne))
  exact hpw

end Rng

